import Mathlib

/-!
Verification of the wiki-crawler pipeline (src/main.rs) against its
specification.  The program is embedded shallowly: strings are Lean
`String`s (manipulated through their underlying `List Char`), the
line-oriented reader is a list of line-read results, and each Rust
function is translated into a computable Lean definition.

Library functions from Rust's standard library and the regex crate are
modelled at the level of their documented semantics:

* `str::trim` removes leading and trailing whitespace.  Rust uses the
  Unicode White_Space property; the model uses the four ASCII whitespace
  characters that occur in practice (space, tab, carriage return, line
  feed).  Every concrete string appearing in a theorem below is ASCII,
  where the two notions agree.
* `str::starts_with` / `str::ends_with` with a string pattern are
  the prefix / suffix tests on the character sequence.
* `char::is_alphanumeric` (Unicode Alphabetic plus Nd/Nl/No) is modelled
  by `Char.isAlphanum`; the two agree on ASCII, and the claims use the
  class abstractly.
* The regex crate's `replace_all` with an empty replacement deletes the
  leftmost-first non-overlapping matches; lazy quantifiers take the
  shortest match at the leftmost starting position.  Each of the four
  concrete patterns of the program is translated into an explicit
  matcher computing the length of the match starting at the head of the
  input, and a generic driver deletes the leftmost matches repeatedly.
-/

/-- The apostrophe character (ASCII 39), written via its code point. -/
def apostrophe : Char := Char.ofNat 39

/-- ASCII whitespace, as used by `str::trim` on ASCII input. -/
def isRustWhitespace (c : Char) : Bool := c = ' ' || c = '\t' || c = '\r' || c = '\n'

/-- Model of Rust `str::trim`: remove leading and trailing whitespace. -/
def rustTrim (s : String) : String :=
  String.mk (((s.data.dropWhile isRustWhitespace).reverse.dropWhile isRustWhitespace).reverse)

/-- Model of Rust `str::starts_with` with a string pattern. -/
def rustStartsWith (s pat : String) : Bool := pat.data.isPrefixOf s.data

/-- Model of Rust `str::ends_with` with a string pattern. -/
def rustEndsWith (s pat : String) : Bool := pat.data.isSuffixOf s.data

/-! ### The text filter (struct `TextFilter`)

`TextFilter::filter` applies three `replace_all` passes in this order:
parens `\(.+?\)`, braces `(?sm)\{\{.*?\}\}`, source `<ref>.+?</ref>`.
-/

/-- Scan for the closing parenthesis of `\(.+?\)` after the first inner
character: the first `)` in the list, provided no line feed comes before
it.  Returns the index of that `)`. -/
def scanToClose : List Char → Option Nat
  | [] => none
  | c :: rest =>
    if c = ')' then some 0
    else if c = '\n' then none
    else (scanToClose rest).map (fun k => k + 1)

/-- Scan for the first adjacent pair of closing braces (the `\}\}` of
`(?sm)\{\{.*?\}\}`; with the `s` flag, the inner `.*?` also crosses line
feeds).  Returns the index where the pair starts. -/
def scanToBraces : List Char → Option Nat
  | [] => none
  | c :: rest =>
    if c = '}' ∧ rest.head? = some '}' then some 0
    else (scanToBraces rest).map (fun k => k + 1)

/-- The characters of the literal `<ref>`. -/
def refOpenChars : List Char := ['<', 'r', 'e', 'f', '>']

/-- The characters of the literal `</ref>`. -/
def refCloseChars : List Char := ['<', '/', 'r', 'e', 'f', '>']

/-- Scan for the closing tag of `<ref>.+?</ref>` after the first inner
character: the first occurrence of `</ref>`, provided no line feed comes
before it.  Returns the index where the occurrence starts. -/
def scanToRefClose : List Char → Option Nat
  | [] => none
  | c :: rest =>
    if refCloseChars.isPrefixOf (c :: rest) then some 0
    else if c = '\n' then none
    else (scanToRefClose rest).map (fun k => k + 1)

/-- Length of the match of `\(.+?\)` starting at the head of the input,
if any: an opening parenthesis, at least one inner character, no line
feed inside, closed by the first possible `)`. -/
def parenMatchLen : List Char → Option Nat
  | c :: d :: rest =>
    if c = '(' ∧ d ≠ '\n' then (scanToClose rest).map (fun k => k + 3) else none
  | _ => none

/-- Length of the match of `(?sm)\{\{.*?\}\}` starting at the head of
the input, if any: two opening braces, then anything (line feeds
included) up to the first adjacent `\}\}`. -/
def braceMatchLen : List Char → Option Nat
  | c :: d :: rest =>
    if c = '{' ∧ d = '{' then (scanToBraces rest).map (fun k => k + 4) else none
  | _ => none

/-- Length of the match of `<ref>.+?</ref>` starting at the head of the
input, if any: the literal `<ref>`, at least one inner character, no
line feed inside, closed by the first occurrence of `</ref>`. -/
def refMatchLen (l : List Char) : Option Nat :=
  if refOpenChars.isPrefixOf l then
    match l.drop 5 with
    | [] => none
    | f :: rest => if f = '\n' then none else (scanToRefClose rest).map (fun k => k + 12)
  else none

/-- Fuelled driver for `replace_all` with the empty replacement: walk
left to right; whenever the matcher fires, delete the match (every
matcher below returns a length of at least 2, so `rest.drop (n - 1)`
is the input minus the match) and continue after it; otherwise keep one
character.  The fuel only serves structural recursion and is always
instantiated to the length of the input, which suffices. -/
def stripAllFuel (m : List Char → Option Nat) : Nat → List Char → List Char
  | 0, l => l
  | _ + 1, [] => []
  | fuel + 1, c :: rest =>
    match m (c :: rest) with
    | some n => stripAllFuel m fuel (rest.drop (n - 1))
    | none => c :: stripAllFuel m fuel rest

/-- `replace_all pattern ""`: delete every leftmost-first
non-overlapping match of the pattern described by the matcher `m`. -/
def stripAll (m : List Char → Option Nat) (l : List Char) : List Char :=
  stripAllFuel m l.length l

namespace TextFilter

/-- `TextFilter::filter`: the three substitution passes, parens first,
then braces, then the `<ref>` source pass. -/
def filter (text : String) : String :=
  String.mk (stripAll refMatchLen (stripAll braceMatchLen (stripAll parenMatchLen text.data)))

end TextFilter

/-! #### The spec text of claim C3, taken literally

Claim C3 describes the first pass as removing every shortest
single-line span from `(` to the next `)` and the third pass as
removing every shortest single-line span from `<ref>` to the next
`</ref>`, without requiring any character between the delimiters.  The
following definitions formalise that literal reading (the brace pass is
unchanged: `.*?` does allow an empty interior). -/

/-- Literal reading of claim C3's first pass: shortest single-line span
from `(` to the next `)`, possibly with nothing between them. -/
def literalParenMatchLen : List Char → Option Nat
  | [] => none
  | c :: rest => if c = '(' then (scanToClose rest).map (fun k => k + 2) else none

/-- Literal reading of claim C3's third pass: shortest single-line span
from `<ref>` to the next `</ref>`, possibly with nothing between. -/
def literalRefMatchLen (l : List Char) : Option Nat :=
  if refOpenChars.isPrefixOf l then (scanToRefClose (l.drop 5)).map (fun k => k + 11) else none

/-- The composition of the three passes exactly as claim C3 words them. -/
def literalFilter (text : String) : String :=
  String.mk (stripAll literalRefMatchLen (stripAll braceMatchLen (stripAll literalParenMatchLen text.data)))

/-! ### The record segmenter (struct `PageBuffer`)

The buffered reader is modelled as the list of outcomes of the
successive line reads: `Except.ok line` for a line successfully read
(terminator already stripped, as with `BufRead::lines`), `Except.error e`
for a failed read carrying an error identifier. -/

/-- One line-read outcome of `BufRead::lines`. -/
abbrev LineItem := Except Nat String

instance : DecidableEq LineItem := fun a b =>
  match a, b with
  | Except.error x, Except.error y =>
    if h : x = y then isTrue (by rw [h]) else isFalse (by simp [h])
  | Except.ok x, Except.ok y =>
    if h : x = y then isTrue (by rw [h]) else isFalse (by simp [h])
  | Except.error _, Except.ok _ => isFalse (by simp)
  | Except.ok _, Except.error _ => isFalse (by simp)

namespace PageBuffer

/-- The body of `PageBuffer::next`: the `for` loop over the remaining
lines, carrying the `take` flag and the accumulation buffer `buf`
(both reinitialised at every call, as in the source).  Returns the
yielded item together with the reader state left for the next call. -/
def loop (take : Bool) (buf : String) : List LineItem → Option (LineItem × List LineItem)
  | [] => if buf.data.isEmpty then none else some (Except.ok buf, [])
  | item :: rest =>
    match item with
    | Except.error e => some (Except.error e, rest)
    | Except.ok text =>
      if rustTrim text = "<page>" then PageBuffer.loop true (buf ++ text ++ "\n") rest
      else if rustTrim text = "</page>" then some (Except.ok (buf ++ text ++ "\n"), rest)
      else if take then PageBuffer.loop take (buf ++ text ++ "\n") rest
      else PageBuffer.loop take buf rest

/-- `PageBuffer::next`: one pull on the iterator. -/
def next (lines : List LineItem) : Option (LineItem × List LineItem) :=
  PageBuffer.loop false "" lines

end PageBuffer

/-- Fuelled exhaustion of the `PageBuffer` iterator: pull with
`PageBuffer.next` until it returns `none`, collecting the items.  The
fuel only serves structural recursion; `pbAll` instantiates it with the
list length, which `PageBuffer.next_rest_length` shows sufficient. -/
def pbAllFuel : Nat → List LineItem → List LineItem
  | 0, _ => []
  | fuel + 1, lines =>
    match PageBuffer.next lines with
    | none => []
    | some (item, rest) => item :: pbAllFuel fuel rest

/-- The full sequence of items yielded by the `PageBuffer` iterator on
the given reader. -/
def pbAll (lines : List LineItem) : List LineItem :=
  pbAllFuel lines.length lines

/-! ### The link extractor (struct `LinkExtractor`)

The pattern is `\[\[([^|]+?)(\|.+)?\]\]`, applied per line to the lines
whose first character is alphanumeric or an apostrophe.  The extractor
returns the first capture group of the first match, scanning the kept
lines in order and, within a line, the match with the leftmost start
(the lazy `[^|]+?` making it shortest there). -/

/-- Model of Rust `char::is_alphanumeric` (agrees on ASCII). -/
def rustIsAlphanumeric (c : Char) : Bool := c.isAlphanum

/-- The filter applied to the lines of the normalized text: keep a line
when its first character is alphanumeric or an apostrophe. -/
def startsQualifying (s : String) : Bool :=
  match s.data with
  | [] => false
  | c :: _ => rustIsAlphanumeric c || c = apostrophe

/-- Whether an adjacent pair `]]` occurs somewhere in the list (the test
the optional group `(\|.+)?\]\]` needs behind the `|`: at least one
character, then `]]`). -/
def hasDoubleClose : List Char → Bool
  | [] => false
  | c :: rest => if c = ']' ∧ rest.head? = some ']' then true else hasDoubleClose rest

/-- Continue the match of `\[\[([^|]+?)(\|.+)?\]\]` after `[[` and at
least one captured character (held reversed in `acc`): close on an
adjacent `]]`; on a `|`, succeed exactly when at least one character
followed by `]]` remains (the greedy optional group); otherwise extend
the lazy capture group by one character. -/
def scanClose (acc : List Char) : List Char → Option (List Char)
  | [] => none
  | c :: rest =>
    if c = ']' ∧ rest.head? = some ']' then some acc.reverse
    else if c = '|' then
      match rest with
      | [] => none
      | _ :: u => if hasDoubleClose u then some acc.reverse else none
    else scanClose (c :: acc) rest

/-- The capture group of the match of `\[\[([^|]+?)(\|.+)?\]\]` starting
exactly at the head of the input, if any. -/
def matchTargetAt : List Char → Option (List Char)
  | a :: b :: c :: rest => if a = '[' ∧ b = '[' ∧ c ≠ '|' then scanClose [c] rest else none
  | _ => none

/-- The capture group of the leftmost match of the link pattern in one
line, if any (the first item of `captures_iter`). -/
def lineFirstTarget : List Char → Option (List Char)
  | [] => none
  | c :: rest =>
    match matchTargetAt (c :: rest) with
    | some t => some t
    | none => lineFirstTarget rest

/-- Helper of `splitLinesAux`: the accumulated line is held reversed, so
a trailing carriage return is its head; `str::lines` strips it when the
line was ended by a line feed. -/
def stripReversedCR : List Char → List Char
  | '\r' :: t => t
  | t => t

/-- Model of Rust `str::lines`: split at line feeds, strip a carriage
return preceding a line feed, keep a last line not ended by a line feed
(carriage return and all), and drop a final empty segment. -/
def splitLinesAux : List Char → List Char → List (List Char)
  | cur, [] => if cur.isEmpty then [] else [cur.reverse]
  | cur, '\n' :: rest => (stripReversedCR cur).reverse :: splitLinesAux [] rest
  | cur, c :: rest => splitLinesAux (c :: cur) rest

/-- The lines of a string, as Rust `str::lines` yields them. -/
def rustLines (s : String) : List String :=
  (splitLinesAux [] s.data).map String.mk

namespace LinkExtractor

/-- `LinkExtractor::extract`: keep the qualifying lines, scan them in
order, and return the capture group of the first match found. -/
def extract (text : String) : Option String :=
  ((rustLines text).filter startsQualifying).findSome? fun line =>
    (lineFirstTarget line.data).map String.mk

end LinkExtractor

/-! ### The page model and the pipeline driver (`Page`, `run`)

XML decoding by `serde_xml_rs` is outside the program (the spec treats
it as an abstract structured-record decoder), so the driver is
parametrised by a `decode : String → Option Page` standing for
`|text| xml::from_str::<Page>(&text).ok()`. -/

/-- One `<revision>` record: its text body. -/
structure Revision where
  text : String
deriving DecidableEq

/-- One decoded `<page>` record: title and revision list. -/
structure Page where
  title : String
  revision : List Revision
deriving DecidableEq

/-- `Page::text`: the first revision's text, unless there is no
revision or that text starts with `#REDIRECT`. -/
def Page.text (p : Page) : Option String :=
  match p.revision.head? with
  | none => none
  | some r => if rustStartsWith r.text "#REDIRECT" then none else some r.text

/-- The last stage of the driver's iterator chain: body text, filtered,
link extracted, paired with the title. -/
def linkStage (page : Page) : Option (String × String) :=
  ((page.text.map TextFilter.filter).bind LinkExtractor.extract).map fun link => (page.title, link)

/-- The driver's iterator chain from the reader to the emitted
`(title, link)` records: segment, decode (read failures and decode
failures filtered out), drop disambiguation titles, extract. -/
def runPages (decode : String → Option Page) (lines : List LineItem) : List (String × String) :=
  (((pbAll lines).filterMap fun item => item.toOption.bind decode).filter
    fun page => !(rustEndsWith page.title "(disambiguation)")).filterMap linkStage

/-- The driver's per-page behaviour, fused into one function: what the
pipeline emits for one successfully decoded page. -/
def pageRecord (page : Page) : Option (String × String) :=
  if rustEndsWith page.title "(disambiguation)" then none else linkStage page

/-! ### Vocabulary for well-formed segmenter inputs

An ignored (junk) line is one whose trimmed text is neither marker; a
well-formed block is an opening marker line, junk body lines, and a
closing marker line. -/

/-- A line the segmenter ignores outside a page: its trimmed text is
neither `<page>` nor `</page>`. -/
def IsJunk (s : String) : Prop := rustTrim s ≠ "<page>" ∧ rustTrim s ≠ "</page>"

instance (s : String) : Decidable (IsJunk s) := by unfold IsJunk; infer_instance

/-- One well-formed page block of the input: the line trimming to
`<page>`, the body lines, and the line trimming to `</page>`. -/
structure WfBlock where
  openLine : String
  body : List String
  closeLine : String

/-- The input lines a block consists of. -/
def blockLines (b : WfBlock) : List String := b.openLine :: b.body ++ [b.closeLine]

/-- The text the segmenter accumulates for a block: every one of its
lines, in order, each followed by the restored line feed. -/
def renderBlock (b : WfBlock) : String :=
  (blockLines b).foldl (fun acc s => acc ++ s ++ "\n") ""

/-- Well-formedness of a block: the delimiters trim to the markers and
the body lines to neither marker (blocks are not nested). -/
def WfB (b : WfBlock) : Prop :=
  rustTrim b.openLine = "<page>" ∧ rustTrim b.closeLine = "</page>" ∧ ∀ s ∈ b.body, IsJunk s

instance (b : WfBlock) : Decidable (WfB b) := by unfold WfB; infer_instance

/-- An input made of well-formed blocks interleaved with other lines:
the leading lines, then each block followed by its trailing lines. -/
def assemble (lead : List String) (segs : List (WfBlock × List String)) : List String :=
  lead ++ segs.flatMap fun bj => blockLines bj.1 ++ bj.2

/-! ### Spec-side characterisations of the three filter patterns

Claim C3 describes each pass by the span it removes.  The following
predicates state, declaratively, that a match of length `n` starts at
the head of the input: the required delimiters enclose an interior
obeying the pass's constraints, and no shorter such interior exists
(the spans are shortest). -/

/-- Declarative form of the parenthesis pass's match at the head of the
input, amended with the interior being nonempty: `(`, a shortest
nonempty line-feed-free interior, `)`. -/
def ParenSpanAt (l : List Char) (n : Nat) : Prop :=
  ∃ mid rest, l = '(' :: mid ++ ')' :: rest ∧ mid ≠ [] ∧ '\n' ∉ mid ∧ n = mid.length + 2 ∧
    ∀ mid2 rest2, l = '(' :: mid2 ++ ')' :: rest2 → mid2 ≠ [] → '\n' ∉ mid2 →
      mid.length ≤ mid2.length

/-- Declarative form of the brace pass's match at the head of the
input: `{{`, a shortest interior (possibly empty, line feeds allowed),
`}}`. -/
def BraceSpanAt (l : List Char) (n : Nat) : Prop :=
  ∃ mid rest, l = '{' :: '{' :: (mid ++ '}' :: '}' :: rest) ∧ n = mid.length + 4 ∧
    ∀ mid2 rest2, l = '{' :: '{' :: (mid2 ++ '}' :: '}' :: rest2) →
      mid.length ≤ mid2.length

/-- Declarative form of the citation pass's match at the head of the
input, amended with the interior being nonempty: `<ref>`, a shortest
nonempty line-feed-free interior, `</ref>`. -/
def RefSpanAt (l : List Char) (n : Nat) : Prop :=
  ∃ mid rest, l = refOpenChars ++ mid ++ refCloseChars ++ rest ∧ mid ≠ [] ∧ '\n' ∉ mid ∧
    n = mid.length + 11 ∧
    ∀ mid2 rest2, l = refOpenChars ++ mid2 ++ refCloseChars ++ rest2 → mid2 ≠ [] →
      '\n' ∉ mid2 → mid.length ≤ mid2.length

/-! ### Occurrence predicates for clean text (claim C9) -/

/-- Whether `pat` occurs as a contiguous segment of the list. -/
def containsSeg (pat : List Char) : List Char → Bool
  | [] => pat.isEmpty
  | x :: rest => pat.isPrefixOf (x :: rest) || containsSeg pat rest

/-- Whether an occurrence of `og` is followed, somewhere later, by an
occurrence of `cg` (executable). -/
def hasOpenClose (og cg : List Char) : List Char → Bool
  | [] => false
  | x :: rest =>
    (og.isPrefixOf (x :: rest) && containsSeg cg (List.drop og.length (x :: rest)))
      || hasOpenClose og cg rest

/-- A block delimited by `og` and `cg` occurs in the list: an
occurrence of `og` followed, somewhere later, by an occurrence of
`cg`. -/
def HasOpenClose (og cg l : List Char) : Prop :=
  ∃ p mid q, l = p ++ og ++ mid ++ cg ++ q

/-! ## Theorems

From here on, only theorems.  First, bounds on the reader state the
segmenter leaves behind, then the fuel unfolding equations. -/

theorem PageBuffer.loop_rest_length : ∀ (l : List LineItem) (take : Bool) (buf : String)
    (item : LineItem) (rest : List LineItem),
    PageBuffer.loop take buf l = some (item, rest) → rest.length ≤ l.length := by
  intro l
  induction l with
  | nil =>
    intro take buf item rest h
    simp only [PageBuffer.loop] at h
    split at h
    · exact absurd h (by simp)
    · simp only [Option.some.injEq, Prod.mk.injEq] at h
      simp [← h.2]
  | cons x xs ih =>
    intro take buf item rest h
    simp only [PageBuffer.loop] at h
    match x with
    | Except.error e =>
      simp only [Option.some.injEq, Prod.mk.injEq] at h
      simp [← h.2, Nat.le_succ]
    | Except.ok text =>
      simp only at h
      split at h
      · exact Nat.le_trans (ih _ _ _ _ h) (Nat.le_succ _)
      · split at h
        · simp only [Option.some.injEq, Prod.mk.injEq] at h
          simp [← h.2, Nat.le_succ]
        · split at h
          · exact Nat.le_trans (ih _ _ _ _ h) (Nat.le_succ _)
          · exact Nat.le_trans (ih _ _ _ _ h) (Nat.le_succ _)

theorem PageBuffer.next_rest_length {l : List LineItem} {item : LineItem} {rest : List LineItem}
    (h : PageBuffer.next l = some (item, rest)) : rest.length < l.length := by
  match l with
  | [] => simp [PageBuffer.next, PageBuffer.loop, String.data] at h
  | x :: xs =>
    have : rest.length ≤ xs.length := by
      simp only [PageBuffer.next, PageBuffer.loop] at h
      match x with
      | Except.error e =>
        simp only [Option.some.injEq, Prod.mk.injEq] at h
        simp [← h.2]
      | Except.ok text =>
        simp only at h
        split at h
        · exact PageBuffer.loop_rest_length _ _ _ _ _ h
        · split at h
          · simp only [Option.some.injEq, Prod.mk.injEq] at h
            simp [← h.2]
          · split at h
            · exact PageBuffer.loop_rest_length _ _ _ _ _ h
            · exact PageBuffer.loop_rest_length _ _ _ _ _ h
    exact Nat.lt_of_le_of_lt this (by simp)

theorem stripAllFuel_congr (m : List Char → Option Nat) :
    ∀ (f g : Nat) (l : List Char), l.length ≤ f → l.length ≤ g →
      stripAllFuel m f l = stripAllFuel m g l := by
  intro f
  induction f with
  | zero =>
    intro g l hf _
    have hl : l = [] := List.eq_nil_of_length_eq_zero (Nat.le_zero.mp hf)
    subst hl
    cases g <;> simp [stripAllFuel]
  | succ f ih =>
    intro g l hf hg
    match g, l with
    | 0, l =>
      have hl : l = [] := List.eq_nil_of_length_eq_zero (Nat.le_zero.mp hg)
      subst hl
      simp [stripAllFuel]
    | g + 1, [] => simp [stripAllFuel]
    | g + 1, c :: rest =>
      simp only [stripAllFuel]
      cases hm : m (c :: rest) with
      | none =>
        have hr : rest.length ≤ f := Nat.le_of_succ_le_succ (by simpa using hf)
        have hr2 : rest.length ≤ g := Nat.le_of_succ_le_succ (by simpa using hg)
        simp only [hm]
        exact congrArg (c :: ·) (ih g rest hr hr2)
      | some n =>
        have hd : (rest.drop (n - 1)).length ≤ rest.length := by
          simp [List.length_drop]
        have hr : rest.length ≤ f := Nat.le_of_succ_le_succ (by simpa using hf)
        have hr2 : rest.length ≤ g := Nat.le_of_succ_le_succ (by simpa using hg)
        simp only [hm]
        exact ih g _ (Nat.le_trans hd hr) (Nat.le_trans hd hr2)

theorem stripAll_cons_some {m : List Char → Option Nat} {c : Char} {rest : List Char} {n : Nat}
    (hm : m (c :: rest) = some n) :
    stripAll m (c :: rest) = stripAll m (rest.drop (n - 1)) := by
  show stripAllFuel m (rest.length + 1) (c :: rest) = _
  simp only [stripAllFuel, hm]
  exact stripAllFuel_congr m rest.length _ _ (by simp [List.length_drop]) (by simp)

theorem stripAll_cons_none {m : List Char → Option Nat} {c : Char} {rest : List Char}
    (hm : m (c :: rest) = none) :
    stripAll m (c :: rest) = c :: stripAll m rest := by
  show stripAllFuel m (rest.length + 1) (c :: rest) = _
  simp only [stripAllFuel, hm]
  exact congrArg (c :: ·) (stripAllFuel_congr m rest.length _ _ (by simp) (by simp))

theorem pbAllFuel_congr :
    ∀ (f g : Nat) (lines : List LineItem), lines.length ≤ f → lines.length ≤ g →
      pbAllFuel f lines = pbAllFuel g lines := by
  intro f
  induction f with
  | zero =>
    intro g lines hf _
    have hl : lines = [] := List.eq_nil_of_length_eq_zero (Nat.le_zero.mp hf)
    subst hl
    cases g <;> simp [pbAllFuel, PageBuffer.next, PageBuffer.loop]
  | succ f ih =>
    intro g lines hf hg
    match g with
    | 0 =>
      have hl : lines = [] := List.eq_nil_of_length_eq_zero (Nat.le_zero.mp hg)
      subst hl
      simp [pbAllFuel, PageBuffer.next, PageBuffer.loop]
    | g + 1 =>
      simp only [pbAllFuel]
      cases hn : PageBuffer.next lines with
      | none => rfl
      | some pr =>
        obtain ⟨item, rest⟩ := pr
        have hlt : rest.length < lines.length := PageBuffer.next_rest_length hn
        exact congrArg (item :: ·)
          (ih g rest (Nat.le_of_succ_le_succ (Nat.lt_of_lt_of_le hlt hf))
            (Nat.le_of_succ_le_succ (Nat.lt_of_lt_of_le hlt hg)))

theorem pbAll_eq_nil {lines : List LineItem} (h : PageBuffer.next lines = none) :
    pbAll lines = [] := by
  cases lines with
  | nil => rfl
  | cons x xs => simp [pbAll, pbAllFuel, h]

theorem pbAll_cons {lines rest : List LineItem} {item : LineItem}
    (h : PageBuffer.next lines = some (item, rest)) :
    pbAll lines = item :: pbAll rest := by
  cases lines with
  | nil => exact absurd h (by simp [PageBuffer.next, PageBuffer.loop])
  | cons x xs =>
    show pbAllFuel (xs.length + 1) (x :: xs) = _
    simp only [pbAllFuel, h]
    exact congrArg (item :: ·)
      (pbAllFuel_congr xs.length _ _
        (Nat.le_of_succ_le_succ (PageBuffer.next_rest_length h)) (Nat.le_refl _))

/-! ### Segmenter behaviour -/

theorem loop_skip : ∀ (junk : List String) (buf : String) (rest : List LineItem),
    (∀ s ∈ junk, IsJunk s) →
    PageBuffer.loop false buf (junk.map Except.ok ++ rest) = PageBuffer.loop false buf rest := by
  intro junk
  induction junk with
  | nil => intro buf rest _; rfl
  | cons j js ih =>
    intro buf rest hj
    have hjj : IsJunk j := hj j (by simp)
    simp only [List.map_cons, List.cons_append, PageBuffer.loop]
    rw [if_neg hjj.1, if_neg hjj.2, if_neg (by simp)]
    exact ih buf rest fun s hs => hj s (by simp [hs])

theorem loop_accum : ∀ (body : List String) (buf : String) (rest : List LineItem),
    (∀ s ∈ body, IsJunk s) →
    PageBuffer.loop true buf (body.map Except.ok ++ rest)
      = PageBuffer.loop true (body.foldl (fun acc s => acc ++ s ++ "\n") buf) rest := by
  intro body
  induction body with
  | nil => intro buf rest _; rfl
  | cons j js ih =>
    intro buf rest hj
    have hjj : IsJunk j := hj j (by simp)
    simp only [List.map_cons, List.cons_append, PageBuffer.loop, List.foldl_cons]
    rw [if_neg hjj.1, if_neg hjj.2]
    simp only [if_true]
    exact ih (buf ++ j ++ "\n") rest fun s hs => hj s (by simp [hs])

theorem next_junk_nil (junk : List String) (h : ∀ s ∈ junk, IsJunk s) :
    PageBuffer.next (junk.map Except.ok) = none := by
  show PageBuffer.loop false "" _ = none
  rw [← List.append_nil (junk.map Except.ok), loop_skip junk "" [] h]
  rfl

theorem next_block (b : WfBlock) (hb : WfB b) (rest : List LineItem) :
    PageBuffer.next ((blockLines b).map Except.ok ++ rest)
      = some (Except.ok (renderBlock b), rest) := by
  obtain ⟨ho, hc, hbody⟩ := hb
  have hshape : (blockLines b).map Except.ok ++ rest
      = Except.ok b.openLine :: (b.body.map Except.ok ++ (Except.ok b.closeLine :: rest)) := by
    simp [blockLines]
  rw [hshape]
  show PageBuffer.loop false "" _ = _
  simp only [PageBuffer.loop]
  rw [if_pos ho]
  rw [loop_accum b.body ("" ++ b.openLine ++ "\n") (Except.ok b.closeLine :: rest) hbody]
  simp only [PageBuffer.loop]
  rw [if_neg (by rw [hc]; decide), if_pos hc]
  simp [renderBlock, blockLines, List.foldl_append]

theorem next_error (e : Nat) (rest : List LineItem) :
    PageBuffer.next (Except.error e :: rest) = some (Except.error e, rest) := rfl

/-- C1: on an input made of well-formed, non-nested page blocks
interleaved with ignored lines, the segmenter yields exactly one block
per page pair, in input order; each block is the concatenation of the
lines from the one trimming to `<page>` through the one trimming to
`</page>`, inclusive, a line feed restored after each line; no ignored
line appears in any block. -/
theorem segmenter_wellFormed_input_yields_blocks :
    ∀ (lead : List String) (segs : List (WfBlock × List String)),
      (∀ s ∈ lead, IsJunk s) →
      (∀ bj ∈ segs, WfB bj.1 ∧ ∀ s ∈ bj.2, IsJunk s) →
      pbAll ((assemble lead segs).map Except.ok)
        = segs.map fun bj => Except.ok (renderBlock bj.1) := by
  intro lead segs
  induction segs generalizing lead with
  | nil =>
    intro hlead _
    have h1 : assemble lead [] = lead := by simp [assemble]
    rw [h1]
    exact pbAll_eq_nil (next_junk_nil lead hlead)
  | cons bj segs ih =>
    intro hlead hsegs
    obtain ⟨b, j⟩ := bj
    have hb : WfB b := (hsegs (b, j) (by simp)).1
    have hjunk : ∀ s ∈ j, IsJunk s := (hsegs (b, j) (by simp)).2
    have hshape : ((assemble lead ((b, j) :: segs)).map Except.ok : List LineItem)
        = lead.map Except.ok
          ++ ((blockLines b).map Except.ok ++ (assemble j segs).map Except.ok) := by
      simp [assemble, List.map_append]
    have hnext : PageBuffer.next ((assemble lead ((b, j) :: segs)).map Except.ok)
        = some (Except.ok (renderBlock b), (assemble j segs).map Except.ok) := by
      rw [hshape]
      show PageBuffer.loop false "" _ = _
      rw [loop_skip lead "" _ hlead]
      exact next_block b hb _
    rw [pbAll_cons hnext]
    rw [ih j hjunk fun x hx => hsegs x (by simp [hx])]
    simp

/-- Witness for C1 at a concrete input: one leading ignored line, a
block with one body line followed by one ignored line, then a block
with whitespace around its markers. -/
theorem segmenter_wellFormed_input_yields_blocks_witness :
    pbAll ((assemble ["junk intro"]
        [(WfBlock.mk "<page>" ["t"] "</page>", ["junk mid"]),
         (WfBlock.mk "  <page>  " [] " </page>", [])]).map Except.ok)
      = [(WfBlock.mk "<page>" ["t"] "</page>", ["junk mid"]),
         (WfBlock.mk "  <page>  " [] " </page>", [])].map
          fun bj => Except.ok (renderBlock bj.1) :=
  segmenter_wellFormed_input_yields_blocks _ _ (by decide) (by decide)

/-- C2 is refuted at this input: after yielding the read failure as an
error item, the segmenter resumes reading and yields a further block,
instead of treating the failure as the end of the stream. -/
theorem segmenter_items_after_error :
    pbAll [Except.error 0, Except.ok "<page>", Except.ok "</page>"]
      = [Except.error 0, Except.ok "<page>\n</page>\n"] := by decide

/-- C2 (amended): a line-read failure is yielded as an error item, and
the following pulls resume with the remaining input; the driver
discards the error item and keeps pulling, rather than halting. -/
theorem readFailure_yields_error_then_continues :
    ∀ (e : Nat) (rest : List LineItem) (decode : String → Option Page),
      pbAll (Except.error e :: rest) = Except.error e :: pbAll rest ∧
      runPages decode (Except.error e :: rest) = runPages decode rest := by
  intro e rest decode
  have h1 : pbAll (Except.error e :: rest) = Except.error e :: pbAll rest :=
    pbAll_cons (next_error e rest)
  refine ⟨h1, ?_⟩
  simp [runPages, h1, Except.toOption]

/-- Witness for the amended C2 at a concrete reader and decoder. -/
theorem readFailure_yields_error_then_continues_witness :
    pbAll [Except.error 5, Except.ok "<page>", Except.ok "</page>"]
      = Except.error 5 :: pbAll [Except.ok "<page>", Except.ok "</page>"] ∧
    runPages (fun _ => none) [Except.error 5, Except.ok "<page>", Except.ok "</page>"]
      = runPages (fun _ => none) [Except.ok "<page>", Except.ok "</page>"] :=
  readFailure_yields_error_then_continues 5
    [Except.ok "<page>", Except.ok "</page>"] (fun _ => none)

/-- C8 is refuted at this input: a line trimming to `</page>` with no
preceding `<page>` line does trigger a yielded block, consisting of
that line alone. -/
theorem strayClose_triggers_block :
    pbAll [Except.ok "</page>"] = [Except.ok "</page>\n"] ∧
    pbAll [Except.ok "</page>"] ≠ ([] : List LineItem) := by decide

/-- C8 (amended): lines outside every page pair whose trimmed text is
not `</page>` never contribute to or trigger a block (an input of only
such lines yields nothing); but a line trimming to `</page>` triggers
an immediate emission even outside any page pair, the block holding
only that line. -/
theorem outside_content_ignored_except_strayClose :
    (∀ junk : List String, (∀ s ∈ junk, IsJunk s) → pbAll (junk.map Except.ok) = []) ∧
    (∀ (junk : List String) (s : String) (rest : List LineItem),
      (∀ x ∈ junk, IsJunk x) → rustTrim s = "</page>" →
      PageBuffer.next (junk.map Except.ok ++ (Except.ok s :: rest))
        = some (Except.ok (s ++ "\n"), rest)) := by
  constructor
  · intro junk hj
    exact pbAll_eq_nil (next_junk_nil junk hj)
  · intro junk s rest hj hs
    show PageBuffer.loop false "" _ = _
    rw [loop_skip junk "" _ hj]
    simp only [PageBuffer.loop]
    rw [if_neg (by rw [hs]; decide), if_pos hs]
    have hemp : ("" : String) ++ s = s := by cases s; rfl
    rw [hemp]

/-- Witness for the amended C8 at concrete inputs. -/
theorem outside_content_ignored_except_strayClose_witness :
    pbAll (["alpha", "beta"].map Except.ok) = [] ∧
    PageBuffer.next (["alpha"].map Except.ok ++ (Except.ok "</page>" :: []))
      = some (Except.ok ("</page>" ++ "\n"), []) :=
  ⟨outside_content_ignored_except_strayClose.1 ["alpha", "beta"] (by decide),
   outside_content_ignored_except_strayClose.2 ["alpha"] "</page>" [] (by decide) (by decide)⟩

/-! ### Pipeline claims -/

theorem runPages_eq (decode : String → Option Page) (lines : List LineItem) :
    runPages decode lines
      = ((pbAll lines).filterMap fun item => item.toOption.bind decode).filterMap pageRecord := by
  unfold runPages
  generalize (pbAll lines).filterMap (fun item => item.toOption.bind decode) = ps
  induction ps with
  | nil => rfl
  | cons p ps ih =>
    cases hE : rustEndsWith p.title "(disambiguation)" with
    | false => simp [List.filter_cons, List.filterMap_cons, pageRecord, hE, ih]
    | true => simp [List.filter_cons, List.filterMap_cons, pageRecord, hE, ih]

/-- C5: body selection is the stated pure function of a `Page` (no
first revision: none; first revision starting with `#REDIRECT`: none;
otherwise the first revision's raw text), and a redirect page yields no
output record; the pipeline is, per successfully decoded page, exactly
`pageRecord`. -/
theorem pageText_selection_and_redirect_excluded :
    (∀ p : Page, p.revision = [] → p.text = none) ∧
    (∀ (p : Page) (r : Revision) (rs : List Revision),
      p.revision = r :: rs → rustStartsWith r.text "#REDIRECT" = true → p.text = none) ∧
    (∀ (p : Page) (r : Revision) (rs : List Revision),
      p.revision = r :: rs → rustStartsWith r.text "#REDIRECT" = false → p.text = some r.text) ∧
    (∀ (p : Page) (r : Revision) (rs : List Revision),
      p.revision = r :: rs → rustStartsWith r.text "#REDIRECT" = true → pageRecord p = none) ∧
    (∀ (decode : String → Option Page) (lines : List LineItem),
      runPages decode lines
        = ((pbAll lines).filterMap fun item => item.toOption.bind decode).filterMap pageRecord) := by
  refine ⟨?_, ?_, ?_, ?_, runPages_eq⟩
  · intro p h
    simp [Page.text, h]
  · intro p r rs h hr
    simp [Page.text, h, hr]
  · intro p r rs h hr
    simp [Page.text, h, hr]
  · intro p r rs h hr
    have ht : p.text = none := by simp [Page.text, h, hr]
    simp [pageRecord, linkStage, ht]

/-- Witness for C5 at concrete pages: no revision, a redirect revision,
an ordinary revision, and a redirect page producing no record. -/
theorem pageText_selection_and_redirect_excluded_witness :
    (Page.mk "E" []).text = none ∧
    (Page.mk "Cat" [Revision.mk "#REDIRECT [[Feline]]"]).text = none ∧
    (Page.mk "Dog" [Revision.mk "See [[Canine]]."]).text = some "See [[Canine]]." ∧
    pageRecord (Page.mk "Cat" [Revision.mk "#REDIRECT [[Feline]]"]) = none :=
  ⟨pageText_selection_and_redirect_excluded.1 _ rfl,
   pageText_selection_and_redirect_excluded.2.1 _ (Revision.mk "#REDIRECT [[Feline]]") [] rfl
     (by decide),
   pageText_selection_and_redirect_excluded.2.2.1 _ (Revision.mk "See [[Canine]].") [] rfl
     (by decide),
   pageText_selection_and_redirect_excluded.2.2.2.1 _ (Revision.mk "#REDIRECT [[Feline]]") []
     rfl (by decide)⟩

/-- C6: a successfully decoded page whose title ends with
`(disambiguation)` contributes no output record, whatever its body; the
pipeline is, per successfully decoded page, exactly `pageRecord`. -/
theorem disambiguation_title_excluded :
    (∀ p : Page, rustEndsWith p.title "(disambiguation)" = true → pageRecord p = none) ∧
    (∀ (decode : String → Option Page) (lines : List LineItem),
      runPages decode lines
        = ((pbAll lines).filterMap fun item => item.toOption.bind decode).filterMap pageRecord) := by
  refine ⟨?_, runPages_eq⟩
  intro p h
  simp [pageRecord, h]

/-- Witness for C6 at a concrete page whose body would yield the link
`Canine`: the record is still suppressed. -/
theorem disambiguation_title_excluded_witness :
    pageRecord (Page.mk "Foo (disambiguation)" [Revision.mk "See [[Canine]]."]) = none ∧
    LinkExtractor.extract (TextFilter.filter "See [[Canine]].") = some "Canine" :=
  ⟨disambiguation_title_excluded.1 _ (by decide), by decide⟩

/-- C10: the parenthetical and citation patterns require a nonempty
interior while the template pattern does not: the filter leaves `()` and
`<ref></ref>` unchanged but removes an empty `{{}}` template. -/
theorem emptyDelimiters_filter_behaviour :
    TextFilter.filter "()" = "()" ∧ TextFilter.filter "<ref></ref>" = "<ref></ref>" ∧
    TextFilter.filter (String.mk ['{', '{', '}', '}']) = "" := by decide

/-! ### Characterisation of the filter pattern scanners

Each scanner's result is the position of the first possible closer, and
comes with the properties claim C3 words the pass by: the interior is
free of the characters the pattern forbids, and no decomposition closes
earlier. -/

theorem scanToClose_some_iff : ∀ (m : List Char) (k : Nat),
    scanToClose m = some k ↔
      ∃ pre rest, m = pre ++ ')' :: rest ∧ pre.length = k ∧ '\n' ∉ pre ∧
        ∀ pre2 rest2, m = pre2 ++ ')' :: rest2 → k ≤ pre2.length := by
  intro m
  induction m with
  | nil =>
    intro k
    constructor
    · intro h
      simp [scanToClose] at h
    · rintro ⟨pre, rest, hdec, -, -, -⟩
      exact absurd hdec (by simp)
  | cons c m ih =>
    intro k
    by_cases hc : c = ')'
    · subst hc
      constructor
      · intro h
        have hk : k = 0 := by
          simp [scanToClose] at h
          omega
        subst hk
        exact ⟨[], m, rfl, rfl, by simp, fun pre2 rest2 _ => Nat.zero_le _⟩
      · rintro ⟨pre, rest, hdec, hlen, hclean, hmin⟩
        have hk : k = 0 := Nat.le_zero.mp (hmin [] m rfl)
        subst hk
        simp [scanToClose]
    · by_cases hn : c = '\n'
      · subst hn
        constructor
        · intro h
          simp [scanToClose] at h
        · rintro ⟨pre, rest, hdec, hlen, hclean, hmin⟩
          cases pre with
          | nil =>
            injection hdec with e1 e2
            exact absurd e1 (by decide)
          | cons p ps =>
            injection hdec with e1 e2
            exact absurd (e1 ▸ List.mem_cons_self p ps) hclean
      · have hunfold : scanToClose (c :: m) = (scanToClose m).map (fun j => j + 1) := by
          simp [scanToClose, hc, hn]
        constructor
        · intro h
          rw [hunfold] at h
          cases hsm : scanToClose m with
          | none => rw [hsm] at h; exact absurd h (by simp)
          | some j =>
            rw [hsm] at h
            simp only [Option.map_some', Option.some.injEq] at h
            obtain ⟨pre, rest, hdec, hlen, hclean, hmin⟩ := (ih j).mp hsm
            refine ⟨c :: pre, rest, by simp [hdec], by simp [hlen, ← h], ?_, ?_⟩
            · intro hmem
              rcases List.mem_cons.mp hmem with h1 | h1
              · exact hn h1.symm
              · exact hclean h1
            · intro pre2 rest2 hdec2
              cases pre2 with
              | nil =>
                injection hdec2 with e1 e2
                exact absurd e1 hc
              | cons p ps =>
                injection hdec2 with e1 e2
                have := hmin ps rest2 e2
                simp only [List.length_cons]
                omega
        · rintro ⟨pre, rest, hdec, hlen, hclean, hmin⟩
          cases pre with
          | nil =>
            injection hdec with e1 e2
            exact absurd e1 hc
          | cons p ps =>
            injection hdec with e1 e2
            have hclean2 : '\n' ∉ ps := fun hm => hclean (List.mem_cons_of_mem _ hm)
            have hmin2 : ∀ pre2 rest2, m = pre2 ++ ')' :: rest2 → ps.length ≤ pre2.length := by
              intro pre2 rest2 hd2
              have := hmin (c :: pre2) rest2 (by simp [hd2])
              simp only [List.length_cons] at this
              simp only [List.length_cons] at hlen
              omega
            have hsm : scanToClose m = some ps.length :=
              (ih ps.length).mpr ⟨ps, rest, e2, rfl, hclean2, hmin2⟩
            rw [hunfold, hsm]
            simp only [Option.map_some', Option.some.injEq]
            simp only [List.length_cons] at hlen
            omega

theorem scanToBraces_some_iff : ∀ (m : List Char) (k : Nat),
    scanToBraces m = some k ↔
      ∃ pre rest, m = pre ++ '}' :: '}' :: rest ∧ pre.length = k ∧
        ∀ pre2 rest2, m = pre2 ++ '}' :: '}' :: rest2 → k ≤ pre2.length := by
  intro m
  induction m with
  | nil =>
    intro k
    constructor
    · intro h
      simp [scanToBraces] at h
    · rintro ⟨pre, rest, hdec, -, -⟩
      exact absurd hdec (by simp)
  | cons c m ih =>
    intro k
    by_cases hpair : c = '}' ∧ m.head? = some '}'
    · obtain ⟨hc, hh⟩ := hpair
      subst hc
      obtain ⟨m2, hm2⟩ : ∃ m2, m = '}' :: m2 := by
        cases m with
        | nil => exact absurd hh (by simp)
        | cons x xs =>
          simp only [List.head?_cons, Option.some.injEq] at hh
          exact ⟨xs, by rw [hh]⟩
      subst hm2
      constructor
      · intro h
        have hk : k = 0 := by
          simp [scanToBraces] at h
          omega
        subst hk
        exact ⟨[], m2, rfl, rfl, fun pre2 rest2 _ => Nat.zero_le _⟩
      · rintro ⟨pre, rest, hdec, hlen, hmin⟩
        have hk : k = 0 := Nat.le_zero.mp (hmin [] m2 rfl)
        subst hk
        simp [scanToBraces]
    · have hunfold : scanToBraces (c :: m) = (scanToBraces m).map (fun j => j + 1) := by
        simp [scanToBraces, hpair]
      constructor
      · intro h
        rw [hunfold] at h
        cases hsm : scanToBraces m with
        | none => rw [hsm] at h; exact absurd h (by simp)
        | some j =>
          rw [hsm] at h
          simp only [Option.map_some', Option.some.injEq] at h
          obtain ⟨pre, rest, hdec, hlen, hmin⟩ := (ih j).mp hsm
          refine ⟨c :: pre, rest, by simp [hdec], by simp [hlen, ← h], ?_⟩
          intro pre2 rest2 hdec2
          cases pre2 with
          | nil =>
            injection hdec2 with e1 e2
            exact absurd ⟨e1, by rw [e2]; rfl⟩ hpair
          | cons p ps =>
            injection hdec2 with e1 e2
            have := hmin ps rest2 e2
            simp only [List.length_cons]
            omega
      · rintro ⟨pre, rest, hdec, hlen, hmin⟩
        cases pre with
        | nil =>
          injection hdec with e1 e2
          exact absurd ⟨e1, by rw [e2]; rfl⟩ hpair
        | cons p ps =>
          injection hdec with e1 e2
          have hmin2 : ∀ pre2 rest2, m = pre2 ++ '}' :: '}' :: rest2 →
              ps.length ≤ pre2.length := by
            intro pre2 rest2 hd2
            have := hmin (c :: pre2) rest2 (by simp [hd2])
            simp only [List.length_cons] at this
            simp only [List.length_cons] at hlen
            omega
          have hsm : scanToBraces m = some ps.length :=
            (ih ps.length).mpr ⟨ps, rest, e2, rfl, hmin2⟩
          rw [hunfold, hsm]
          simp only [Option.map_some', Option.some.injEq]
          simp only [List.length_cons] at hlen
          omega

theorem scanToRefClose_some_iff : ∀ (m : List Char) (k : Nat),
    scanToRefClose m = some k ↔
      ∃ pre rest, m = pre ++ refCloseChars ++ rest ∧ pre.length = k ∧ '\n' ∉ pre ∧
        ∀ pre2 rest2, m = pre2 ++ refCloseChars ++ rest2 → k ≤ pre2.length := by
  intro m
  induction m with
  | nil =>
    intro k
    constructor
    · intro h
      simp [scanToRefClose] at h
    · rintro ⟨pre, rest, hdec, -, -, -⟩
      exact absurd hdec (by simp [refCloseChars])
  | cons c m ih =>
    intro k
    by_cases hpre : refCloseChars.isPrefixOf (c :: m)
    · obtain ⟨t, ht⟩ : ∃ t, refCloseChars ++ t = c :: m := List.isPrefixOf_iff_prefix.mp hpre
      constructor
      · intro h
        have hk : k = 0 := by
          simp [scanToRefClose, hpre] at h
          omega
        subst hk
        exact ⟨[], t, by rw [← ht]; rfl, rfl, by simp, fun pre2 rest2 _ => Nat.zero_le _⟩
      · rintro ⟨pre, rest, hdec, hlen, hclean, hmin⟩
        have hk : k = 0 := Nat.le_zero.mp (hmin [] t (by rw [← ht]; rfl))
        subst hk
        simp [scanToRefClose, hpre]
    · by_cases hn : c = '\n'
      · subst hn
        constructor
        · intro h
          simp [scanToRefClose, hpre] at h
        · rintro ⟨pre, rest, hdec, hlen, hclean, hmin⟩
          cases pre with
          | nil =>
            have hpr : refCloseChars <+: ('\n' :: m) := ⟨rest, by simpa using hdec.symm⟩
            exact absurd (List.isPrefixOf_iff_prefix.mpr hpr) hpre
          | cons p ps =>
            injection hdec with e1 e2
            exact absurd (e1 ▸ List.mem_cons_self p ps) hclean
      · have hunfold : scanToRefClose (c :: m) = (scanToRefClose m).map (fun j => j + 1) := by
          simp [scanToRefClose, hpre, hn]
        constructor
        · intro h
          rw [hunfold] at h
          cases hsm : scanToRefClose m with
          | none => rw [hsm] at h; exact absurd h (by simp)
          | some j =>
            rw [hsm] at h
            simp only [Option.map_some', Option.some.injEq] at h
            obtain ⟨pre, rest, hdec, hlen, hclean, hmin⟩ := (ih j).mp hsm
            refine ⟨c :: pre, rest, by simp [hdec], by simp [hlen, ← h], ?_, ?_⟩
            · intro hmem
              rcases List.mem_cons.mp hmem with h1 | h1
              · exact hn h1.symm
              · exact hclean h1
            · intro pre2 rest2 hdec2
              cases pre2 with
              | nil =>
                have hpr : refCloseChars <+: (c :: m) := ⟨rest2, by simpa using hdec2.symm⟩
                exact absurd (List.isPrefixOf_iff_prefix.mpr hpr) hpre
              | cons p ps =>
                injection hdec2 with e1 e2
                have := hmin ps rest2 e2
                simp only [List.length_cons]
                omega
        · rintro ⟨pre, rest, hdec, hlen, hclean, hmin⟩
          cases pre with
          | nil =>
            have hpr : refCloseChars <+: (c :: m) := ⟨rest, by simpa using hdec.symm⟩
            exact absurd (List.isPrefixOf_iff_prefix.mpr hpr) hpre
          | cons p ps =>
            injection hdec with e1 e2
            have hclean2 : '\n' ∉ ps := fun hm => hclean (List.mem_cons_of_mem _ hm)
            have hmin2 : ∀ pre2 rest2, m = pre2 ++ refCloseChars ++ rest2 →
                ps.length ≤ pre2.length := by
              intro pre2 rest2 hd2
              have := hmin (c :: pre2) rest2 (by simp [hd2])
              simp only [List.length_cons] at this
              simp only [List.length_cons] at hlen
              omega
            have hsm : scanToRefClose m = some ps.length :=
              (ih ps.length).mpr ⟨ps, rest, e2, rfl, hclean2, hmin2⟩
            rw [hunfold, hsm]
            simp only [Option.map_some', Option.some.injEq]
            simp only [List.length_cons] at hlen
            omega

/-! ### Characterisation of the three match functions -/

theorem parenMatchLen_eq (c d : Char) (rest : List Char) :
    parenMatchLen (c :: d :: rest)
      = if c = '(' ∧ d ≠ '\n' then (scanToClose rest).map (fun k => k + 3) else none := rfl

theorem parenMatchLen_some_iff : ∀ (l : List Char) (n : Nat),
    parenMatchLen l = some n ↔ ParenSpanAt l n := by
  intro l n
  cases l with
  | nil =>
    constructor
    · intro h; exact absurd h (by simp [parenMatchLen])
    · rintro ⟨mid, rst, hdec, -, -, -, -⟩; exact absurd hdec (by simp)
  | cons c l1 =>
    cases l1 with
    | nil =>
      constructor
      · intro h; exact absurd h (by simp [parenMatchLen])
      · rintro ⟨mid, rst, hdec, hne, -, -, -⟩
        cases mid with
        | nil => exact (hne rfl).elim
        | cons q qs => exact absurd (congrArg List.length hdec) (by simp)
    | cons d rest =>
      constructor
      · intro h
        rw [parenMatchLen_eq] at h
        by_cases hcd : c = '(' ∧ d ≠ '\n'
        · rw [if_pos hcd] at h
          obtain ⟨hc, hd⟩ := hcd
          subst hc
          obtain ⟨k, hsk, hn⟩ : ∃ k, scanToClose rest = some k ∧ n = k + 3 := by
            cases hs : scanToClose rest with
            | none => rw [hs] at h; exact absurd h (by simp)
            | some k =>
              rw [hs] at h
              simp only [Option.map_some', Option.some.injEq] at h
              exact ⟨k, rfl, h.symm⟩
          obtain ⟨pre, rst, hdec, hlen, hclean, hmin⟩ := (scanToClose_some_iff rest k).mp hsk
          refine ⟨d :: pre, rst, by simp [hdec], by simp, ?_, by simp [hlen, hn], ?_⟩
          · intro hm
            rcases List.mem_cons.mp hm with h1 | h1
            · exact hd h1.symm
            · exact hclean h1
          · intro mid2 rest2 hdec2 hne2 hclean2
            cases mid2 with
            | nil => exact (hne2 rfl).elim
            | cons q qs =>
              injection hdec2 with e0 e1
              injection e1 with e2 e3
              have := hmin qs rest2 e3
              simp only [List.length_cons]
              omega
        · rw [if_neg hcd] at h
          exact absurd h (by simp)
      · rintro ⟨mid, rst, hdec, hne, hclean, hn, hmin⟩
        cases mid with
        | nil => exact (hne rfl).elim
        | cons d2 pre =>
          have hdec2 : c :: d :: rest = '(' :: d2 :: (pre ++ ')' :: rst) := by
            rw [hdec]; simp
          injection hdec2 with e0 e1
          injection e1 with e2 e3
          subst e0
          subst e2
          have hd : d ≠ '\n' := by
            intro he
            exact hclean (by rw [he]; exact List.mem_cons_self _ _)
          have hclean2 : '\n' ∉ pre := fun hm => hclean (List.mem_cons_of_mem _ hm)
          have hmin2 : ∀ pre2 rest2, pre ++ ')' :: rst = pre2 ++ ')' :: rest2 →
              pre.length ≤ pre2.length := by
            intro pre2 rest2 hd2
            by_cases hlt : pre2.length < pre.length
            · have h1 : (pre2 ++ ')' :: rest2).take pre2.length = pre2 := List.take_left _ _
              rw [← hd2] at h1
              rw [List.take_append_of_le_length (Nat.le_of_lt hlt)] at h1
              have hsub : '\n' ∉ pre2 := fun hm =>
                hclean2 (List.take_subset _ _ (h1 ▸ hm))
              have := hmin (d :: pre2) rest2 (by rw [e3, hd2]; simp) (by simp)
                (by
                  intro hm
                  rcases List.mem_cons.mp hm with h1m | h1m
                  · exact hd h1m.symm
                  · exact hsub h1m)
              simp only [List.length_cons] at this
              omega
            · omega
          have hsc : scanToClose (pre ++ ')' :: rst) = some pre.length :=
            (scanToClose_some_iff _ _).mpr ⟨pre, rst, rfl, rfl, hclean2, hmin2⟩
          rw [parenMatchLen_eq, if_pos ⟨rfl, hd⟩, e3, hsc]
          simp only [Option.map_some', Option.some.injEq]
          simp only [List.length_cons] at hn
          omega

theorem braceMatchLen_eq (c d : Char) (rest : List Char) :
    braceMatchLen (c :: d :: rest)
      = if c = '{' ∧ d = '{' then (scanToBraces rest).map (fun k => k + 4) else none := rfl

theorem braceMatchLen_some_iff : ∀ (l : List Char) (n : Nat),
    braceMatchLen l = some n ↔ BraceSpanAt l n := by
  intro l n
  cases l with
  | nil =>
    constructor
    · intro h; exact absurd h (by simp [braceMatchLen])
    · rintro ⟨mid, rst, hdec, -, -⟩; exact absurd hdec (by simp)
  | cons c l1 =>
    cases l1 with
    | nil =>
      constructor
      · intro h; exact absurd h (by simp [braceMatchLen])
      · rintro ⟨mid, rst, hdec, -, -⟩; exact absurd hdec (by simp)
    | cons d rest =>
      constructor
      · intro h
        rw [braceMatchLen_eq] at h
        by_cases hcd : c = '{' ∧ d = '{'
        · rw [if_pos hcd] at h
          obtain ⟨hc, hd⟩ := hcd
          subst hc
          subst hd
          obtain ⟨k, hsk, hn⟩ : ∃ k, scanToBraces rest = some k ∧ n = k + 4 := by
            cases hs : scanToBraces rest with
            | none => rw [hs] at h; exact absurd h (by simp)
            | some k =>
              rw [hs] at h
              simp only [Option.map_some', Option.some.injEq] at h
              exact ⟨k, rfl, h.symm⟩
          obtain ⟨pre, rst, hdec, hlen, hmin⟩ := (scanToBraces_some_iff rest k).mp hsk
          refine ⟨pre, rst, by simp [hdec], by omega, ?_⟩
          intro mid2 rest2 hdec2
          injection hdec2 with e0 e1
          injection e1 with e2 e3
          have := hmin mid2 rest2 e3
          omega
        · rw [if_neg hcd] at h
          exact absurd h (by simp)
      · rintro ⟨mid, rst, hdec, hn, hmin⟩
        injection hdec with e0 e1
        injection e1 with e2 e3
        subst e0
        subst e2
        have hmin2 : ∀ pre2 rest2, mid ++ '}' :: '}' :: rst = pre2 ++ '}' :: '}' :: rest2 →
            mid.length ≤ pre2.length := by
          intro pre2 rest2 hd2
          exact hmin pre2 rest2 (by rw [e3, hd2])
        have hsb : scanToBraces (mid ++ '}' :: '}' :: rst) = some mid.length :=
          (scanToBraces_some_iff _ _).mpr ⟨mid, rst, rfl, rfl, hmin2⟩
        rw [braceMatchLen_eq, if_pos ⟨rfl, rfl⟩, e3, hsb]
        simp only [Option.map_some', Option.some.injEq]
        omega

theorem refMatchLen_some_iff : ∀ (l : List Char) (n : Nat),
    refMatchLen l = some n ↔ RefSpanAt l n := by
  intro l n
  constructor
  · intro h
    unfold refMatchLen at h
    by_cases hpre : refOpenChars.isPrefixOf l
    · rw [if_pos hpre] at h
      obtain ⟨t, ht⟩ := List.isPrefixOf_iff_prefix.mp hpre
      have hdrop : l.drop 5 = t := by
        rw [← ht]
        exact List.drop_left refOpenChars t
      rw [hdrop] at h
      cases t with
      | nil => exact absurd h (by simp)
      | cons f rest =>
        have h2 : (if f = '\n' then none
            else Option.map (fun k => k + 12) (scanToRefClose rest)) = some n := h
        by_cases hf : f = '\n'
        · rw [if_pos hf] at h2; exact absurd h2 (by simp)
        · rw [if_neg hf] at h2
          obtain ⟨k, hsk, hn⟩ : ∃ k, scanToRefClose rest = some k ∧ n = k + 12 := by
            cases hs : scanToRefClose rest with
            | none => rw [hs] at h2; exact absurd h2 (by simp)
            | some k =>
              rw [hs] at h2
              simp only [Option.map_some', Option.some.injEq] at h2
              exact ⟨k, rfl, h2.symm⟩
          obtain ⟨pre, rst, hdec, hlen, hclean, hmin⟩ := (scanToRefClose_some_iff rest k).mp hsk
          refine ⟨f :: pre, rst, ?_, by simp, ?_, ?_, ?_⟩
          · rw [← ht, hdec]
            simp
          · intro hm
            rcases List.mem_cons.mp hm with h1 | h1
            · exact hf h1.symm
            · exact hclean h1
          · simp only [List.length_cons]
            omega
          · intro mid2 rest2 hdec2 hne2 hclean2
            have hx : refOpenChars ++ f :: rest
                = refOpenChars ++ (mid2 ++ refCloseChars ++ rest2) := by
              rw [ht, hdec2]
              simp
            have heq : f :: rest = mid2 ++ refCloseChars ++ rest2 :=
              List.append_cancel_left hx
            cases mid2 with
            | nil => exact (hne2 rfl).elim
            | cons q qs =>
              injection heq with e1 e2
              have := hmin qs rest2 e2
              simp only [List.length_cons]
              omega
    · rw [if_neg hpre] at h
      exact absurd h (by simp)
  · rintro ⟨mid, rst, hdec, hne, hclean, hn, hmin⟩
    cases mid with
    | nil => exact (hne rfl).elim
    | cons f pre =>
      have hshape : l = refOpenChars ++ (f :: (pre ++ refCloseChars ++ rst)) := by
        rw [hdec]
        simp
      have hpre : refOpenChars.isPrefixOf l :=
        List.isPrefixOf_iff_prefix.mpr ⟨f :: (pre ++ refCloseChars ++ rst), hshape.symm⟩
      have hdrop : l.drop 5 = f :: (pre ++ refCloseChars ++ rst) := by
        rw [hshape]
        exact List.drop_left refOpenChars _
      have hf : f ≠ '\n' := by
        intro he
        exact hclean (by rw [he]; exact List.mem_cons_self _ _)
      have hclean2 : '\n' ∉ pre := fun hm => hclean (List.mem_cons_of_mem _ hm)
      have hmin2 : ∀ pre2 rest2, pre ++ refCloseChars ++ rst = pre2 ++ refCloseChars ++ rest2 →
          pre.length ≤ pre2.length := by
        intro pre2 rest2 hd2
        by_cases hlt : pre2.length < pre.length
        · have hd3 : pre ++ (refCloseChars ++ rst) = pre2 ++ (refCloseChars ++ rest2) := by
            simpa [List.append_assoc] using hd2
          have h1 : (pre2 ++ (refCloseChars ++ rest2)).take pre2.length = pre2 :=
            List.take_left _ _
          rw [← hd3] at h1
          rw [List.take_append_of_le_length (Nat.le_of_lt hlt)] at h1
          have hsub : '\n' ∉ pre2 := fun hm => hclean2 (List.take_subset _ _ (h1 ▸ hm))
          have := hmin (f :: pre2) rest2 (by rw [hdec]; simp [hd3]) (by simp)
            (by
              intro hm
              rcases List.mem_cons.mp hm with h1m | h1m
              · exact hf h1m.symm
              · exact hsub h1m)
          simp only [List.length_cons] at this
          omega
        · omega
      have hsc : scanToRefClose (pre ++ refCloseChars ++ rst) = some pre.length :=
        (scanToRefClose_some_iff _ _).mpr ⟨pre, rst, rfl, rfl, hclean2, hmin2⟩
      unfold refMatchLen
      rw [if_pos hpre, hdrop]
      show (if f = '\n' then none
          else Option.map (fun k => k + 12) (scanToRefClose (pre ++ refCloseChars ++ rst)))
        = some n
      rw [if_neg hf, hsc]
      simp only [Option.map_some', Option.some.injEq]
      simp only [List.length_cons] at hn
      omega

/-- C3 is refuted at the input `()`: read literally, the claim's first
pass removes the span from `(` to the next `)`, so the composition it
describes maps `()` to the empty string, while the filter leaves `()`
unchanged (the pattern `\(.+?\)` needs an inner character). -/
theorem literal_spec_composition_differs :
    TextFilter.filter "()" = "()" ∧ literalFilter "()" = "" ∧
    TextFilter.filter "()" ≠ literalFilter "()" := by decide

/-- C3 (amended): the Text Filter is the composition, in this order, of
the three leftmost-shortest-match deletion passes, where the
parenthetical and citation spans must hold at least one character
between their delimiters (the template span may be empty): each pass's
matcher is characterised by the corresponding declarative span
predicate, and the filter is their ordered composition. -/
theorem filter_is_ordered_composition :
    (∀ (l : List Char) (n : Nat), parenMatchLen l = some n ↔ ParenSpanAt l n) ∧
    (∀ (l : List Char) (n : Nat), braceMatchLen l = some n ↔ BraceSpanAt l n) ∧
    (∀ (l : List Char) (n : Nat), refMatchLen l = some n ↔ RefSpanAt l n) ∧
    (∀ s : String, TextFilter.filter s
      = String.mk (stripAll refMatchLen (stripAll braceMatchLen (stripAll parenMatchLen s.data)))) :=
  ⟨parenMatchLen_some_iff, braceMatchLen_some_iff, refMatchLen_some_iff, fun _ => rfl⟩

/-- Witness for the amended C3: the three span characterisations at
concrete matches, and the composition at a concrete string. -/
theorem filter_is_ordered_composition_witness :
    ParenSpanAt ['(', 'a', ')', 'x'] 3 ∧ BraceSpanAt ['{', '{', '}', '}'] 4 ∧
    RefSpanAt ('<' :: 'r' :: 'e' :: 'f' :: '>' :: 'c' :: refCloseChars) 12 ∧
    TextFilter.filter "(a)x" = "x" :=
  ⟨(filter_is_ordered_composition.1 _ 3).mp (by decide),
   (filter_is_ordered_composition.2.1 _ 4).mp (by decide),
   (filter_is_ordered_composition.2.2.1 _ 12).mp (by decide),
   (filter_is_ordered_composition.2.2.2 "(a)x").symm.trans (by decide)⟩

/-! ### The filter on clean text (claim C9) -/

theorem stripAll_eq_self (m : List Char → Option Nat) :
    ∀ l : List Char, (∀ l2 : List Char, l2 <:+ l → m l2 = none) → stripAll m l = l := by
  intro l
  induction l with
  | nil => intro _; rfl
  | cons c rest ih =>
    intro h
    rw [stripAll_cons_none (h (c :: rest) (List.suffix_refl _))]
    exact congrArg (c :: ·) (ih fun l2 hl2 => h l2 (hl2.trans (List.suffix_cons c rest)))

theorem stripAll_paren_id {l : List Char} (h : '(' ∉ l) : stripAll parenMatchLen l = l := by
  apply stripAll_eq_self
  intro l2 hl2
  cases l2 with
  | nil => rfl
  | cons c rest =>
    cases rest with
    | nil => rfl
    | cons d rest2 =>
      rw [parenMatchLen_eq]
      exact if_neg fun hc =>
        h (hl2.subset (show ('(' : Char) ∈ c :: d :: rest2 by
          rw [← hc.1]; exact List.mem_cons_self _ _))

theorem stripAll_brace_id {l : List Char} (h : ¬ HasOpenClose ['{', '{'] ['}', '}'] l) :
    stripAll braceMatchLen l = l := by
  apply stripAll_eq_self
  intro l2 hl2
  cases hm : braceMatchLen l2 with
  | none => rfl
  | some n =>
    exfalso
    obtain ⟨mid, rst, hdec, -, -⟩ := (braceMatchLen_some_iff l2 n).mp hm
    obtain ⟨p, hp⟩ := hl2
    exact h ⟨p, mid, rst, by rw [← hp, hdec]; simp⟩

theorem stripAll_ref_id {l : List Char} (h : ¬ HasOpenClose refOpenChars refCloseChars l) :
    stripAll refMatchLen l = l := by
  apply stripAll_eq_self
  intro l2 hl2
  cases hm : refMatchLen l2 with
  | none => rfl
  | some n =>
    exfalso
    obtain ⟨mid, rst, hdec, -, -, -, -⟩ := (refMatchLen_some_iff l2 n).mp hm
    obtain ⟨p, hp⟩ := hl2
    exact h ⟨p, mid, rst, by rw [← hp, hdec]; simp⟩

/-- C9: on text containing no parenthesis, no `{{...}}` template block
and no `<ref>...</ref>` citation block, the Text Filter is the
identity. -/
theorem filter_identity_on_clean_text (s : String)
    (h1 : '(' ∉ s.data)
    (h2 : ¬ HasOpenClose ['{', '{'] ['}', '}'] s.data)
    (h3 : ¬ HasOpenClose refOpenChars refCloseChars s.data) :
    TextFilter.filter s = s := by
  unfold TextFilter.filter
  rw [stripAll_paren_id h1, stripAll_brace_id h2, stripAll_ref_id h3]

theorem containsSeg_iff (pat : List Char) : ∀ l : List Char,
    containsSeg pat l = true ↔ ∃ p q, l = p ++ pat ++ q := by
  intro l
  induction l with
  | nil =>
    constructor
    · intro h
      have hp : pat = [] := by
        simpa [containsSeg, List.isEmpty_iff] using h
      exact ⟨[], [], by simp [hp]⟩
    · rintro ⟨p, q, hpq⟩
      have h2 := congrArg List.length hpq
      simp only [List.length_nil, List.length_append] at h2
      have hp : pat = [] := List.eq_nil_of_length_eq_zero (by omega)
      simp [containsSeg, hp]
  | cons x rest ih =>
    simp only [containsSeg, Bool.or_eq_true]
    constructor
    · rintro (hpre | hrest)
      · obtain ⟨t, ht⟩ := List.isPrefixOf_iff_prefix.mp hpre
        exact ⟨[], t, by rw [← ht]; rfl⟩
      · obtain ⟨p, q, hpq⟩ := ih.mp hrest
        exact ⟨x :: p, q, by simp [hpq]⟩
    · rintro ⟨p, q, hpq⟩
      cases p with
      | nil =>
        left
        have hx : pat ++ q = x :: rest := by simpa using hpq.symm
        exact List.isPrefixOf_iff_prefix.mpr ⟨q, hx⟩
      | cons y ys =>
        right
        apply ih.mpr
        have hpq2 : x :: rest = y :: (ys ++ pat ++ q) := by
          rw [hpq]; simp
        injection hpq2 with e1 e2
        exact ⟨ys, q, e2⟩

theorem hasOpenClose_iff (og cg : List Char) (hog : og ≠ []) : ∀ l : List Char,
    hasOpenClose og cg l = true ↔ HasOpenClose og cg l := by
  intro l
  induction l with
  | nil =>
    constructor
    · intro h
      exact absurd h (by simp [hasOpenClose])
    · rintro ⟨p, mid, q, hdec⟩
      have h2 := congrArg List.length hdec
      simp only [List.length_nil, List.length_append] at h2
      exact (hog (List.eq_nil_of_length_eq_zero (by omega))).elim
  | cons x rest ih =>
    simp only [hasOpenClose, Bool.or_eq_true, Bool.and_eq_true]
    constructor
    · rintro (⟨hpre, hseg⟩ | hrest)
      · obtain ⟨t, ht⟩ := List.isPrefixOf_iff_prefix.mp hpre
        have hdrop : List.drop og.length (x :: rest) = t := by
          rw [← ht]; exact List.drop_left og t
        rw [hdrop] at hseg
        obtain ⟨a, b, hab⟩ := (containsSeg_iff cg t).mp hseg
        exact ⟨[], a, b, by rw [← ht, hab]; simp⟩
      · obtain ⟨p, mid, q, hpq⟩ := ih.mp hrest
        exact ⟨x :: p, mid, q, by simp [hpq]⟩
    · rintro ⟨p, mid, q, hdec⟩
      cases p with
      | nil =>
        left
        have hx : x :: rest = og ++ (mid ++ cg ++ q) := by
          simpa [List.append_assoc] using hdec
        refine ⟨List.isPrefixOf_iff_prefix.mpr ⟨mid ++ cg ++ q, hx.symm⟩, ?_⟩
        have hdrop : List.drop og.length (x :: rest) = mid ++ cg ++ q := by
          rw [hx]; exact List.drop_left og _
        rw [hdrop]
        exact (containsSeg_iff cg _).mpr ⟨mid, q, rfl⟩
      | cons y ys =>
        right
        apply ih.mpr
        have hdec2 : x :: rest = y :: (ys ++ og ++ mid ++ cg ++ q) := by
          rw [hdec]; simp
        injection hdec2 with e1 e2
        exact ⟨ys, mid, q, e2⟩

theorem not_hasOpenClose {og cg : List Char} (hog : og ≠ []) {l : List Char}
    (h : hasOpenClose og cg l = false) : ¬ HasOpenClose og cg l :=
  fun hh => absurd ((hasOpenClose_iff og cg hog l).mpr hh) (by simp [h])

/-- Witness for C9 at a concrete clean text. -/
theorem filter_identity_on_clean_text_witness :
    TextFilter.filter "Dog is an animal. See x." = "Dog is an animal. See x." :=
  filter_identity_on_clean_text _ (by decide)
    (not_hasOpenClose (by decide) (by decide))
    (not_hasOpenClose (by decide) (by decide))

/-! ### The link extractor's scanning order (claim C4) -/

theorem findSome_eq_some_iff {α β : Type} (f : α → Option β) :
    ∀ (l : List α) (b : β), l.findSome? f = some b ↔
      ∃ p x q, l = p ++ x :: q ∧ f x = some b ∧ ∀ y ∈ p, f y = none := by
  intro l
  induction l with
  | nil =>
    intro b
    constructor
    · intro h; exact absurd h (by simp)
    · rintro ⟨p, x, q, hdec, -, -⟩; exact absurd hdec (by simp)
  | cons a l ih =>
    intro b
    cases hfa : f a with
    | some c =>
      have hcons : (a :: l).findSome? f = some c := by rw [List.findSome?_cons, hfa]
      rw [hcons]
      constructor
      · intro h
        injection h with e
        exact ⟨[], a, l, rfl, by rw [hfa, e], fun y hy => absurd hy (by simp)⟩
      · rintro ⟨p, x, q, hdec, hfx, hnone⟩
        cases p with
        | nil =>
          injection hdec with e1 e2
          rw [← e1, hfa] at hfx
          exact hfx
        | cons y ys =>
          have hy : f y = none := hnone y (by simp)
          injection hdec with e1 e2
          rw [e1, hy] at hfa
          exact absurd hfa (by simp)
    | none =>
      have hcons : (a :: l).findSome? f = l.findSome? f := by rw [List.findSome?_cons, hfa]
      rw [hcons]
      constructor
      · intro h
        obtain ⟨p, x, q, hdec, hfx, hnone⟩ := (ih b).mp h
        refine ⟨a :: p, x, q, by rw [hdec]; rfl, hfx, ?_⟩
        intro y hy
        rcases List.mem_cons.mp hy with h1 | h1
        · rw [h1]; exact hfa
        · exact hnone y h1
      · rintro ⟨p, x, q, hdec, hfx, hnone⟩
        cases p with
        | nil =>
          injection hdec with e1 e2
          rw [← e1, hfa] at hfx
          exact absurd hfx (by simp)
        | cons y ys =>
          injection hdec with e1 e2
          exact (ih b).mpr ⟨ys, x, q, e2, hfx, fun z hz => hnone z (List.mem_cons_of_mem _ hz)⟩

theorem findSome_filter_eq {α β : Type} (pred : α → Bool) (f : α → Option β) :
    ∀ l : List α, (l.filter pred).findSome? f
      = l.findSome? fun x => if pred x then f x else none := by
  intro l
  induction l with
  | nil => rfl
  | cons a l ih =>
    cases hp : pred a with
    | true =>
      have h1 : (a :: l).filter pred = a :: l.filter pred := by
        rw [List.filter_cons, if_pos hp]
      rw [h1]
      cases hfa : f a with
      | some c =>
        have h2 : (a :: l.filter pred).findSome? f = some c := by
          rw [List.findSome?_cons, hfa]
        have h3 : ((a :: l).findSome? fun x => if pred x then f x else none) = some c := by
          rw [List.findSome?_cons]
          simp [hp, hfa]
        rw [h2, h3]
      | none =>
        have h2 : (a :: l.filter pred).findSome? f = (l.filter pred).findSome? f := by
          rw [List.findSome?_cons, hfa]
        have h3 : ((a :: l).findSome? fun x => if pred x then f x else none)
            = l.findSome? fun x => if pred x then f x else none := by
          rw [List.findSome?_cons]
          simp [hp, hfa]
        rw [h2, h3, ih]
    | false =>
      have h1 : (a :: l).filter pred = l.filter pred := by
        rw [List.filter_cons, if_neg (by simp [hp])]
      have h3 : ((a :: l).findSome? fun x => if pred x then f x else none)
          = l.findSome? fun x => if pred x then f x else none := by
        rw [List.findSome?_cons]
        simp [hp]
      rw [h1, h3, ih]

theorem lineFirstTarget_some_iff : ∀ (l t : List Char),
    lineFirstTarget l = some t ↔
      ∃ p q, l = p ++ q ∧ matchTargetAt q = some t ∧
        ∀ p2 q2, l = p2 ++ q2 → p2.length < p.length → matchTargetAt q2 = none := by
  intro l
  induction l with
  | nil =>
    intro t
    constructor
    · intro h; exact absurd h (by simp [lineFirstTarget])
    · rintro ⟨p, q, hdec, hm, -⟩
      have hq : q = [] := (List.append_eq_nil.mp hdec.symm).2
      rw [hq] at hm
      exact absurd hm (by simp [matchTargetAt])
  | cons c l ih =>
    intro t
    cases hm : matchTargetAt (c :: l) with
    | some t2 =>
      have hcons : lineFirstTarget (c :: l) = some t2 := by
        unfold lineFirstTarget
        rw [hm]
      rw [hcons]
      constructor
      · intro h
        injection h with e
        exact ⟨[], c :: l, rfl, by rw [hm, e], fun p2 q2 _ h2 => absurd h2 (by simp)⟩
      · rintro ⟨p, q, hdec, hmq, hmin⟩
        cases p with
        | nil =>
          have hq : q = c :: l := by simpa using hdec.symm
          rw [hq, hm] at hmq
          exact hmq
        | cons y ys =>
          have := hmin [] (c :: l) rfl (by simp)
          rw [hm] at this
          exact absurd this (by simp)
    | none =>
      have hcons : lineFirstTarget (c :: l) = lineFirstTarget l := by
        show (match matchTargetAt (c :: l) with
          | some t => some t
          | none => lineFirstTarget l) = lineFirstTarget l
        rw [hm]
      rw [hcons]
      constructor
      · intro h
        obtain ⟨p, q, hdec, hmq, hmin⟩ := (ih t).mp h
        refine ⟨c :: p, q, by rw [hdec]; rfl, hmq, ?_⟩
        intro p2 q2 hd2 hlt
        cases p2 with
        | nil =>
          have hq2 : q2 = c :: l := by simpa using hd2.symm
          rw [hq2]
          exact hm
        | cons z zs =>
          injection hd2 with e1 e2
          exact hmin zs q2 e2 (by simpa using hlt)
      · rintro ⟨p, q, hdec, hmq, hmin⟩
        cases p with
        | nil =>
          have hq : q = c :: l := by simpa using hdec.symm
          rw [hq, hm] at hmq
          exact absurd hmq (by simp)
        | cons y ys =>
          injection hdec with e1 e2
          apply (ih t).mpr
          refine ⟨ys, q, e2, hmq, ?_⟩
          intro p2 q2 hd2 hlt
          exact hmin (c :: p2) q2 (by rw [hd2]; rfl) (by simpa using hlt)

/-- C4: the extractor returns the first capture found by scanning, in
order, only the lines whose first character is alphanumeric or an
apostrophe, matching left to right within a line; other lines are
skipped entirely, and with no match on any kept line it returns none. -/
theorem extract_first_qualifying_line_first_match :
    (∀ (text target : String),
      LinkExtractor.extract text = some target ↔
        ∃ p line q, rustLines text = p ++ line :: q ∧ startsQualifying line = true ∧
          (lineFirstTarget line.data).map String.mk = some target ∧
          ∀ l2 ∈ p, startsQualifying l2 = true → lineFirstTarget l2.data = none) ∧
    (∀ text : String,
      LinkExtractor.extract text = none ↔
        ∀ line ∈ rustLines text, startsQualifying line = true →
          lineFirstTarget line.data = none) ∧
    (∀ line : String, startsQualifying line = true ↔
      ∃ c rest, line.data = c :: rest ∧ (rustIsAlphanumeric c = true ∨ c = apostrophe)) ∧
    (∀ (l t : List Char),
      lineFirstTarget l = some t ↔
        ∃ p q, l = p ++ q ∧ matchTargetAt q = some t ∧
          ∀ p2 q2, l = p2 ++ q2 → p2.length < p.length → matchTargetAt q2 = none) := by
  refine ⟨?_, ?_, ?_, lineFirstTarget_some_iff⟩
  · intro text target
    unfold LinkExtractor.extract
    rw [findSome_filter_eq, findSome_eq_some_iff]
    constructor
    · rintro ⟨p, x, q, hdec, hfx, hnone⟩
      by_cases hq : startsQualifying x = true
      · rw [if_pos hq] at hfx
        refine ⟨p, x, q, hdec, hq, hfx, ?_⟩
        intro l2 hl2 hql2
        have h2 := hnone l2 hl2
        rw [if_pos hql2] at h2
        cases hlf : lineFirstTarget l2.data with
        | none => rfl
        | some t2 => rw [hlf] at h2; exact absurd h2 (by simp)
      · rw [if_neg hq] at hfx
        exact absurd hfx (by simp)
    · rintro ⟨p, line, q, hdec, hq, hmap, hnone⟩
      refine ⟨p, line, q, hdec, by rw [if_pos hq]; exact hmap, ?_⟩
      intro y hy
      by_cases hqy : startsQualifying y = true
      · rw [if_pos hqy, hnone y hy hqy]
        rfl
      · rw [if_neg hqy]
  · intro text
    unfold LinkExtractor.extract
    rw [findSome_filter_eq, List.findSome?_eq_none_iff]
    constructor
    · intro h line hline hql
      have h2 := h line hline
      rw [if_pos hql] at h2
      cases hlf : lineFirstTarget line.data with
      | none => rfl
      | some t2 => rw [hlf] at h2; exact absurd h2 (by simp)
    · intro h x hx
      by_cases hqx : startsQualifying x = true
      · rw [if_pos hqx, h x hx hqx]
        rfl
      · rw [if_neg hqx]
  · intro line
    unfold startsQualifying
    cases hld : line.data with
    | nil => simp
    | cons c rest =>
      constructor
      · intro h
        exact ⟨c, rest, rfl, by simpa using h⟩
      · rintro ⟨c2, rest2, heq, hp⟩
        injection heq with e1 e2
        subst e1
        simpa using hp

/-- Witness for C4 at a concrete normalized text whose first line
starts with an asterisk (skipped despite holding an earlier link) and
whose second line yields the capture, plus the skip behaviour of the
listed first characters. -/
theorem extract_first_qualifying_line_first_match_witness :
    (∃ p line q, rustLines "* [[Skip]]\nSee [[Hit]] now." = p ++ line :: q ∧
      startsQualifying line = true ∧
      (lineFirstTarget line.data).map String.mk = some "Hit" ∧
      ∀ l2 ∈ p, startsQualifying l2 = true → lineFirstTarget l2.data = none) ∧
    startsQualifying "[x" = false ∧ startsQualifying "* x" = false ∧
    startsQualifying "#x" = false ∧ startsQualifying ":x" = false ∧
    startsQualifying (String.mk ['{', 'x']) = false ∧ startsQualifying "Text" = true ∧
    startsQualifying (String.mk (apostrophe :: ['D', 'o', 'g'])) = true :=
  ⟨(extract_first_qualifying_line_first_match.1 _ _).mp (by decide),
   by decide, by decide, by decide, by decide, by decide, by decide, by decide⟩

/-! ### The capture group of the link pattern (claim C7) -/

theorem hasDoubleClose_iff : ∀ u : List Char,
    hasDoubleClose u = true ↔ ∃ a v, u = a ++ ']' :: ']' :: v := by
  intro u
  induction u with
  | nil =>
    constructor
    · intro h; exact absurd h (by simp [hasDoubleClose])
    · rintro ⟨a, v, hav⟩; exact absurd hav (by simp)
  | cons c rest ih =>
    unfold hasDoubleClose
    by_cases h1 : c = ']' ∧ rest.head? = some ']'
    · rw [if_pos h1]
      obtain ⟨hc, hh⟩ := h1
      obtain ⟨v, hv⟩ : ∃ v, rest = ']' :: v := by
        cases rest with
        | nil => exact absurd hh (by simp)
        | cons x xs =>
          simp only [List.head?_cons, Option.some.injEq] at hh
          exact ⟨xs, by rw [hh]⟩
      constructor
      · intro _
        exact ⟨[], v, by rw [hc, hv]; rfl⟩
      · intro _
        rfl
    · rw [if_neg h1, ih]
      constructor
      · rintro ⟨a, v, hav⟩
        exact ⟨c :: a, v, by rw [hav]; rfl⟩
      · rintro ⟨a, v, hav⟩
        cases a with
        | nil =>
          injection hav with e1 e2
          exact absurd ⟨e1, by rw [e2]; rfl⟩ h1
        | cons b bs =>
          injection hav with e1 e2
          exact ⟨bs, v, e2⟩

theorem scanClose_sound : ∀ (r acc t : List Char), scanClose acc r = some t →
    ∃ mid, t = acc.reverse ++ mid ∧ '|' ∉ mid ∧
      ((∃ v, r = mid ++ ']' :: ']' :: v) ∨
       (∃ a v, r = mid ++ ('|' :: (a ++ (']' :: ']' :: v))) ∧ a ≠ [])) := by
  intro r
  induction r with
  | nil =>
    intro acc t h
    exact absurd h (by simp [scanClose])
  | cons c rest ih =>
    intro acc t h
    unfold scanClose at h
    by_cases h1 : c = ']' ∧ rest.head? = some ']'
    · rw [if_pos h1] at h
      injection h with e
      obtain ⟨hc, hh⟩ := h1
      obtain ⟨v, hv⟩ : ∃ v, rest = ']' :: v := by
        cases rest with
        | nil => exact absurd hh (by simp)
        | cons x xs =>
          simp only [List.head?_cons, Option.some.injEq] at hh
          exact ⟨xs, by rw [hh]⟩
      refine ⟨[], by rw [← e]; simp, by simp, Or.inl ⟨v, ?_⟩⟩
      rw [hc, hv]
      rfl
    · rw [if_neg h1] at h
      by_cases h2 : c = '|'
      · rw [if_pos h2] at h
        cases rest with
        | nil => exact absurd h (by simp)
        | cons x u =>
          have h4 : (if hasDoubleClose u = true then some acc.reverse else none) = some t := h
          by_cases h3 : hasDoubleClose u = true
          · rw [if_pos h3] at h4
            injection h4 with e
            obtain ⟨a0, v, hav⟩ := (hasDoubleClose_iff u).mp h3
            refine ⟨[], by rw [← e]; simp, by simp, Or.inr ⟨x :: a0, v, ?_, by simp⟩⟩
            rw [h2, hav]
            rfl
          · rw [if_neg h3] at h4
            exact absurd h4 (by simp)
      · rw [if_neg h2] at h
        obtain ⟨mid, hmid, hnp, hclose⟩ := ih (c :: acc) t h
        refine ⟨c :: mid, by rw [hmid]; simp, ?_, ?_⟩
        · intro hm
          rcases List.mem_cons.mp hm with hx | hx
          · exact h2 hx.symm
          · exact hnp hx
        · rcases hclose with ⟨v, hv⟩ | ⟨a, v, hv, ha⟩
          · exact Or.inl ⟨v, by rw [hv]; rfl⟩
          · exact Or.inr ⟨a, v, by rw [hv]; rfl, ha⟩

theorem matchTargetAt_sound : ∀ (l t : List Char), matchTargetAt l = some t →
    t ≠ [] ∧ '|' ∉ t ∧
      ((∃ v, l = '[' :: '[' :: (t ++ ']' :: ']' :: v)) ∨
       (∃ a v, l = '[' :: '[' :: (t ++ ('|' :: (a ++ (']' :: ']' :: v)))) ∧ a ≠ [])) := by
  intro l t h
  cases l with
  | nil => exact absurd h (by simp [matchTargetAt])
  | cons a l1 =>
    cases l1 with
    | nil => exact absurd h (by simp [matchTargetAt])
    | cons b l2 =>
      cases l2 with
      | nil => exact absurd h (by simp [matchTargetAt])
      | cons c rest =>
        have h2 : (if a = '[' ∧ b = '[' ∧ c ≠ '|' then scanClose [c] rest else none)
            = some t := h
        by_cases hcond : a = '[' ∧ b = '[' ∧ c ≠ '|'
        · rw [if_pos hcond] at h2
          obtain ⟨ha2, hb2, hc2⟩ := hcond
          subst ha2
          subst hb2
          obtain ⟨mid, hmid, hnp, hclose⟩ := scanClose_sound rest [c] t h2
          have ht : t = c :: mid := by simpa using hmid
          refine ⟨by rw [ht]; simp, ?_, ?_⟩
          · rw [ht]
            intro hm
            rcases List.mem_cons.mp hm with h1 | h1
            · exact hc2 h1.symm
            · exact hnp h1
          · rcases hclose with ⟨v, hv⟩ | ⟨a2, v, hv, ha3⟩
            · exact Or.inl ⟨v, by rw [hv, ht]; rfl⟩
            · exact Or.inr ⟨a2, v, by rw [hv, ht]; rfl, ha3⟩
        · rw [if_neg hcond] at h2
          exact absurd h2 (by simp)

theorem scanClose_piped : ∀ (t acc a v : List Char), '|' ∉ t →
    (∀ x y, t ≠ x ++ ']' :: ']' :: y) → a ≠ [] →
    scanClose acc (t ++ ('|' :: (a ++ (']' :: ']' :: v)))) = some (acc.reverse ++ t) := by
  intro t
  induction t with
  | nil =>
    intro acc a v _ _ ha
    cases a with
    | nil => exact absurd rfl ha
    | cons a0 as =>
      show scanClose acc ('|' :: ((a0 :: as) ++ (']' :: ']' :: v))) = some (acc.reverse ++ [])
      unfold scanClose
      rw [if_neg fun hq => absurd hq.1 (by decide), if_pos rfl]
      show (if hasDoubleClose (as ++ (']' :: ']' :: v)) = true then some acc.reverse else none)
        = some (acc.reverse ++ [])
      rw [if_pos ((hasDoubleClose_iff _).mpr ⟨as, v, rfl⟩)]
      simp
  | cons c ts ih =>
    intro acc a v hp hdc ha
    have hcp : c ≠ '|' := fun he => hp (by rw [he]; exact List.mem_cons_self _ _)
    show scanClose acc (c :: (ts ++ ('|' :: (a ++ (']' :: ']' :: v))))) = some (acc.reverse ++ (c :: ts))
    unfold scanClose
    rw [if_neg ?hno, if_neg hcp]
    case hno =>
      rintro ⟨hc, hh⟩
      cases ts with
      | nil => simp at hh
      | cons t0 ts2 =>
        simp only [List.cons_append, List.head?_cons, Option.some.injEq] at hh
        exact hdc [] ts2 (by rw [hc, hh]; rfl)
    rw [ih (c :: acc) a v (fun hm => hp (List.mem_cons_of_mem _ hm))
      (fun x y hxy => hdc (c :: x) y (by rw [hxy]; rfl)) ha]
    simp

theorem matchTargetAt_piped (t a v : List Char) (ht : t ≠ []) (hp : '|' ∉ t)
    (hdc : ∀ x y, t ≠ x ++ ']' :: ']' :: y) (ha : a ≠ []) :
    matchTargetAt ('[' :: '[' :: (t ++ ('|' :: (a ++ (']' :: ']' :: v))))) = some t := by
  cases t with
  | nil => exact absurd rfl ht
  | cons c ts =>
    have hcp : c ≠ '|' := fun he => hp (by rw [he]; exact List.mem_cons_self _ _)
    show (if ('[' : Char) = '[' ∧ ('[' : Char) = '[' ∧ c ≠ '|'
        then scanClose [c] (ts ++ ('|' :: (a ++ (']' :: ']' :: v)))) else none)
      = some (c :: ts)
    rw [if_pos ⟨rfl, rfl, hcp⟩]
    rw [scanClose_piped ts [c] a v (fun hm => hp (List.mem_cons_of_mem _ hm))
      (fun x y hxy => hdc (c :: x) y (by rw [hxy]; rfl)) ha]
    rfl

/-- C7: for the piped link construct the captured target is exactly the
nonempty pipe-free run between `[[` and the `|`, the pipe and the alias
being excluded: concretely the extractor returns `Target Page` from
`[[Target Page|displayed text]]` on a qualifying line; every capture is
such a run (soundness), and every such run is captured (completeness
for the piped form). -/
theorem pipe_alias_excluded :
    LinkExtractor.extract "See [[Target Page|displayed text]]." = some "Target Page" ∧
    (∀ l t : List Char, matchTargetAt l = some t →
      t ≠ [] ∧ '|' ∉ t ∧
        ((∃ v, l = '[' :: '[' :: (t ++ ']' :: ']' :: v)) ∨
         (∃ a v, l = '[' :: '[' :: (t ++ ('|' :: (a ++ (']' :: ']' :: v)))) ∧ a ≠ []))) ∧
    (∀ t a v : List Char, t ≠ [] → '|' ∉ t → (∀ x y, t ≠ x ++ ']' :: ']' :: y) → a ≠ [] →
      matchTargetAt ('[' :: '[' :: (t ++ ('|' :: (a ++ (']' :: ']' :: v))))) = some t) :=
  ⟨by decide, matchTargetAt_sound, fun t a v ht hp hdc ha => matchTargetAt_piped t a v ht hp hdc ha⟩

/-- Witness for C7: the concrete extraction, the soundness conclusion
at a concrete match, and the completeness instance at a concrete piped
construct. -/
theorem pipe_alias_excluded_witness :
    LinkExtractor.extract "See [[Target Page|displayed text]]." = some "Target Page" ∧
    (['A'] ≠ [] ∧ '|' ∉ ['A'] ∧
      ((∃ v, ['[', '[', 'A', '|', 'b', ']', ']'] = '[' :: '[' :: (['A'] ++ ']' :: ']' :: v)) ∨
       (∃ a v, ['[', '[', 'A', '|', 'b', ']', ']']
          = '[' :: '[' :: (['A'] ++ ('|' :: (a ++ (']' :: ']' :: v)))) ∧ a ≠ []))) ∧
    matchTargetAt ('[' :: '[' :: (['T'] ++ ('|' :: (['x'] ++ (']' :: ']' :: ([] : List Char))))))
      = some ['T'] :=
  ⟨pipe_alias_excluded.1,
   pipe_alias_excluded.2.1 ['[', '[', 'A', '|', 'b', ']', ']'] ['A'] (by decide),
   pipe_alias_excluded.2.2 ['T'] ['x'] []
     (by decide) (by decide)
     (by
       intro x y hxy
       have h2 := congrArg List.length hxy
       simp only [List.length_cons, List.length_append, List.length_nil] at h2
       omega)
     (by decide)⟩

